import Mathlib

/-!
Verification of the thoonk.js feed protocol (`src/feed.js`).

The feed keeps two co-indexed Redis structures: a sorted set of item IDs
(`feed.ids:[feed]`, scored by publication timestamp) and a hash of item
contents (`feed.items:[feed]`), plus a publish counter
(`feed.publishes:[feed]`).  `feedPublish` and `feedRetract` drive
watch/multi/exec transactions against them.  The development below embeds
the store primitives the code uses (with Redis semantics), the feed state,
the transaction batches the code builds, and the event traces (lock,
notifications, callbacks) the code produces.
-/

namespace Thoonk

/-- One entry of a Redis sorted set: member name and numeric score. -/
abbrev ZEntry := String × Nat

/-- Member names of a sorted-set value, in rank order (ascending score). -/
def smembers (l : List ZEntry) : List String := l.map Prod.fst

/-- Redis ZRANGE by rank over a sorted-set value (the list is kept in rank
order).  Negative indexes count from the end; a start above the normalized
stop, or past the end, yields the empty list.  `feedPublish` calls this as
`zrange('feed.ids:...', 0, -max_length)`. -/
def zrange (l : List ZEntry) (start stop : Int) : List String :=
  let len : Int := (l.length : Int)
  let s0 : Int := if start < 0 then len + start else start
  let e0 : Int := if stop < 0 then len + stop else stop
  let s1 : Int := if s0 < 0 then 0 else s0
  if s1 > e0 ∨ s1 ≥ len then []
  else
    let e1 : Int := if e0 > len - 1 then len - 1 else e0
    ((l.drop s1.toNat).take (e1 - s1 + 1).toNat).map Prod.fst

/-- Insert a member with its score into a sorted-set value, keeping rank
order (score ascending, ties by member name, as Redis orders ties). -/
def zinsert (score : Nat) (id : String) : List ZEntry → List ZEntry
  | [] => [(id, score)]
  | p :: rest =>
      if score < p.2 ∨ (score = p.2 ∧ id < p.1) then (id, score) :: p :: rest
      else p :: zinsert score id rest

/-- Redis ZADD: insert or update a member's score.  The integer reply is 1
when the member was newly added and 0 when an existing member's score was
updated — `feedPublish` reads this reply to classify publish vs edit. -/
def zadd (l : List ZEntry) (score : Nat) (id : String) : List ZEntry × Nat :=
  let present := l.any (fun p => p.1 == id)
  (zinsert score id (l.filter (fun p => p.1 != id)), if present then 0 else 1)

/-- Redis ZREM: remove a member; reply 1 when it was present. -/
def zrem (l : List ZEntry) (id : String) : List ZEntry × Nat :=
  (l.filter (fun p => p.1 != id), if l.any (fun p => p.1 == id) then 1 else 0)

/-- Redis HSET: set a hash field; reply 1 when the field is new. -/
def hset (m : List (String × String)) (f v : String) : List (String × String) × Nat :=
  if m.any (fun p => p.1 == f) then
    (m.map (fun p => if p.1 == f then (f, v) else p), 0)
  else (m ++ [(f, v)], 1)

/-- Redis HDEL: delete a hash field; reply 1 when it was present. -/
def hdel (m : List (String × String)) (f : String) : List (String × String) × Nat :=
  (m.filter (fun p => p.1 != f), if m.any (fun p => p.1 == f) then 1 else 0)

/-- Redis HGET: read a hash field. -/
def hget (m : List (String × String)) (f : String) : Option String :=
  (m.find? (fun p => p.1 == f)).map Prod.snd

/-- The per-feed store state: `feed.ids:[feed]` (ID Index, a sorted set in
rank order), `feed.items:[feed]` (Item Map) and `feed.publishes:[feed]`
(publish counter). -/
structure FeedState where
  ids : List ZEntry
  items : List (String × String)
  publishes : Nat
deriving DecidableEq

/-- The write commands `feedPublish` / `feedRetract` queue on a MULTI
object: `zrem`, `hdel` and an in-batch `publish` to the retract channel for
each evicted ID, then `zadd`, `incr`, `hset` for the published item. -/
inductive Cmd where
  | zrem (id : String)
  | hdel (id : String)
  | pubRetract (id : String)
  | zadd (score : Nat) (id : String)
  | incr
  | hset (id : String) (item : String)
deriving DecidableEq

/-- Externally observable events of a publish/retract run, in order: lock
acquisition and release, watch abandonment, transaction outcomes, pubsub
notifications (with their encoded payloads) and caller callbacks. -/
inductive Event where
  | lockAcquire
  | unlock
  | unwatch
  | execAborted
  | execCommitted
  | noteRetract (payload : String)
  | notePublish (payload : String)
  | noteEdit (payload : String)
  | callbackPub (item id : String)
  | callbackRetract (id : String) (err : Option String)
deriving DecidableEq

/-- Execute one queued command on the feed state, returning the new state,
the integer reply, and any pubsub event the command emits. -/
def execCmd (s : FeedState) : Cmd → FeedState × Nat × List Event
  | Cmd.zrem i =>
      let r := zrem s.ids i
      ({ s with ids := r.1 }, r.2, [])
  | Cmd.hdel i =>
      let r := hdel s.items i
      ({ s with items := r.1 }, r.2, [])
  | Cmd.pubRetract i => (s, 0, [Event.noteRetract i])
  | Cmd.zadd sc i =>
      let r := zadd s.ids sc i
      ({ s with ids := r.1 }, r.2, [])
  | Cmd.incr => ({ s with publishes := s.publishes + 1 }, s.publishes + 1, [])
  | Cmd.hset i v =>
      let r := hset s.items i v
      ({ s with items := r.1 }, r.2, [])

/-- Execute a MULTI batch: all commands run atomically in order on the
state the transaction commits against; replies are collected in order. -/
def execBatch : FeedState → List Cmd → FeedState × List Nat × List Event
  | s, [] => (s, [], [])
  | s, c :: cs =>
      let r := execCmd s c
      let rest := execBatch r.1 cs
      (rest.1, r.2.1 :: rest.2.1, r.2.2 ++ rest.2.2)

/-- The overflow set read inside a bounded publish attempt:
`zrange('feed.ids:' + this.name, 0, -max_length)` (feed.js line 122). -/
def overflowIds (s : FeedState) (max_length : Nat) : List String :=
  zrange s.ids 0 (-(max_length : Int))

/-- The eviction commands queued for the overflow IDs (feed.js lines
124-128): for each `delete_id` a `zrem`, an `hdel` and a publish to the
retract channel. -/
def deleteCmds (deleteIds : List String) : List Cmd :=
  deleteIds.flatMap (fun d => [Cmd.zrem d, Cmd.hdel d, Cmd.pubRetract d])

/-- The full command list one publish attempt queues (feed.js lines
124-131): evictions, then `zadd` of the published id at the current
timestamp, `incr` of the publish counter, and `hset` of the content. -/
def publishCmds (deleteIds : List String) (now : Nat) (id item : String) : List Cmd :=
  deleteCmds deleteIds ++ [Cmd.zadd now id, Cmd.incr, Cmd.hset id item]

/-- `reply.slice(-3,-2)[0]` (feed.js lines 137 and 154): the third reply
from the end of the EXEC reply array, i.e. the `zadd` reply. -/
def sliceNeg3 (rs : List Nat) : Option Nat := rs[rs.length - 3]?

/-- JavaScript truthiness of an integer-or-absent Redis reply: absent (or
error) and 0 are falsy. -/
def truthy : Option Nat → Bool
  | none => false
  | some n => n != 0

/-- The publish/edit channel payload: `id + "\x00" + item` (feed.js lines
138 and 140). -/
def pubPayload (id item : String) : String := id ++ "\x00" ++ item

/-- The tail of a committed publish attempt (feed.js lines 132-143): the
batch commits (emitting its in-batch retract notices), the lock is
released, then a publish notification if the `zadd` reply was truthy, else
an edit notification, then the caller's callback with `(item, id)`. -/
def publishFinish (rs : List Nat) (batchEvents : List Event) (id item : String) : List Event :=
  batchEvents ++ [Event.execCommitted, Event.unlock,
    (if truthy (sliceNeg3 rs) then Event.notePublish (pubPayload id item)
     else Event.noteEdit (pubPayload id item)),
    Event.callbackPub item id]

/-- One bounded publish attempt executed against the snapshot it watched:
the queued commands run atomically (feed.js lines 121-131). -/
def feedPublishAttempt (s : FeedState) (max_length now : Nat) (id item : String) :
    FeedState × List Nat × List Event :=
  execBatch s (publishCmds (overflowIds s max_length) now id item)

/-- `feedPublish` (feed.js lines 112-162) for a run whose first attempt
commits: acquire the lock, branch on a truthy `max_length` (bounded path
queues the evictions, unbounded path queues none), execute the batch, then
unlock, notify and call back per `publishFinish`. -/
def feedPublish (s : FeedState) (max_length now : Nat) (id item : String) :
    FeedState × List Event :=
  if max_length != 0 then
    let r := feedPublishAttempt s max_length now id item
    (r.1, Event.lockAcquire :: publishFinish r.2.1 r.2.2 id item)
  else
    let r := execBatch s (publishCmds [] now id item)
    (r.1, Event.lockAcquire :: publishFinish r.2.1 r.2.2 id item)

/-- The snapshot a bounded publish attempt reads, and the `Date.now()`
timestamp it uses for its `zadd`. -/
structure AttemptCtx where
  pre : FeedState
  now : Nat
deriving DecidableEq

/-- The commands accumulated on the single `pmulti` object across publish
attempts.  `pmulti` is created once, before the retry closure (feed.js
line 117), and `exec` does not clear its queue, so each retried attempt
appends its commands after the aborted attempts' commands. -/
def accumulatedCmds (attempts : List AttemptCtx) (max_length : Nat) (id item : String) :
    List Cmd :=
  attempts.foldl
    (fun acc a => acc ++ publishCmds (overflowIds a.pre max_length) a.now id item) []

/-- A full bounded publish run: each attempt in `aborted` watched
`feed.ids`, read its snapshot, queued its commands on the shared `pmulti`
and had its EXEC rejected (unlocking in the EXEC callback, feed.js line
133, then retrying); the `final` attempt's EXEC commits every accumulated
command atomically against `final.pre`.  Returns the final state, the
committed command list, and the event trace. -/
def publishRun (aborted : List AttemptCtx) (final : AttemptCtx) (max_length : Nat)
    (id item : String) : FeedState × List Cmd × List Event :=
  let cmds := accumulatedCmds (aborted ++ [final]) max_length id item
  let r := execBatch final.pre cmds
  (r.1, cmds,
    Event.lockAcquire :: (aborted.flatMap (fun _ => [Event.execAborted, Event.unlock]))
      ++ publishFinish r.2.1 r.2.2 id item)

/-- The reply of the existence check in `feedRetract` (feed.js line 177).
The code calls `this.mredis.zrank('feed.ids:' + this.name, callback)` —
the member argument is omitted, so node_redis sends `ZRANK` with only the
key, Redis answers with a wrong-number-of-arguments error, and the
callback receives an undefined reply. -/
def zrankMissingMember : Option Nat := none

/-- The commands `feedRetract` queues when the existence check is truthy
(feed.js lines 179-182). -/
def retractCmds (id : String) : List Cmd :=
  [Cmd.zrem id, Cmd.hdel id, Cmd.pubRetract id]

/-- The inner callback of `feedRetract` (feed.js lines 177-198), as a
function of the `zrank` reply it receives.  Truthy reply: queue the
removal batch and commit it (the rejected-EXEC branch at lines 185-188
would re-enter `feedRetract` from the top via `this.retract`); falsy
reply: unlock, unwatch, and call back with "Id does not exist.". -/
def feedRetractStep (reply : Option Nat) (s : FeedState) (id : String) :
    FeedState × List Event × Option String :=
  if truthy reply then
    let r := execBatch s (retractCmds id)
    (r.1, r.2.2 ++ [Event.execCommitted, Event.unlock, Event.callbackRetract id none], none)
  else
    (s, [Event.unlock, Event.unwatch,
         Event.callbackRetract id (some "Id does not exist.")],
     some "Id does not exist.")

/-- `feedRetract` (feed.js lines 175-200): acquire the lock, watch
`feed.ids`, run the existence check (whose reply is `zrankMissingMember`,
see there), and continue in `feedRetractStep`. -/
def feedRetract (s : FeedState) (id : String) : FeedState × List Event × Option String :=
  let r := feedRetractStep zrankMissingMember s id
  (r.1, Event.lockAcquire :: r.2.1, r.2.2)

/-- `feedGetItem` (feed.js lines 227-229): `hget("feed.items:" + name, id)`. -/
def feedGetItem (s : FeedState) (id : String) : Option String := hget s.items id

/-- One publish operation of a sequence: its id, content and timestamp. -/
structure PubOp where
  id : String
  item : String
  now : Nat
deriving DecidableEq

/-- The states after each publish of a sequence of successful publishes
(each one committing against the state the previous one left). -/
def publishStates (s : FeedState) (max_length : Nat) : List PubOp → List FeedState
  | [] => []
  | op :: ops =>
      let s1 := (feedPublish s max_length op.now op.id op.item).1
      s1 :: publishStates s1 max_length ops

/-- The ids a command batch removes from the ID Index (its `zrem` targets). -/
def removedIds (cmds : List Cmd) : List String :=
  cmds.filterMap (fun c => match c with | Cmd.zrem i => some i | _ => none)

/-- Number of lock releases in an event trace. -/
def countUnlock (evs : List Event) : Nat := evs.count Event.unlock

/-- The feed state after the eviction commands for `O` have run: entries
whose member is in `O` are gone from both the ID Index and the Item Map. -/
def afterDeletes (s : FeedState) (O : List String) : FeedState where
  ids := s.ids.filter (fun p => !(O.contains p.1))
  items := s.items.filter (fun p => !(O.contains p.1))
  publishes := s.publishes

/-- `ZRANGE key 0 -N` returns the first `length + 1 - N` members in rank
order (all of them truncated at the low end; empty when `length < N`). -/
theorem zrange_take (l : List ZEntry) (N : Nat) (hN : 1 ≤ N) :
    zrange l 0 (-(N : Int)) = (smembers l).take (l.length + 1 - N) := by
  unfold zrange smembers
  norm_num
  rw [if_pos (show 0 < N from hN)]
  by_cases h : l.length < N
  · rw [if_pos (Or.inl (by omega : (l.length:Int) + -(N:Int) < 0))]
    have h0 : l.length + 1 - N = 0 := by omega
    rw [h0, List.take_zero]
  · have hne : l ≠ [] := by
      intro he
      rw [he] at h
      simp at h
      omega
    rw [if_neg (by
      push_neg
      exact ⟨by omega, hne⟩)]
    rw [if_neg (by omega : ¬((l.length:Int) - 1 < (l.length:Int) + -(N:Int)))]
    have ht : ((l.length : Int) + -(N:Int) + 1).toNat = l.length + 1 - N := by omega
    rw [ht]

theorem execBatch_append (s : FeedState) (xs ys : List Cmd) :
    execBatch s (xs ++ ys) =
      ((execBatch (execBatch s xs).1 ys).1,
       (execBatch s xs).2.1 ++ (execBatch (execBatch s xs).1 ys).2.1,
       (execBatch s xs).2.2 ++ (execBatch (execBatch s xs).1 ys).2.2) := by
  induction xs generalizing s with
  | nil => simp [execBatch]
  | cons c cs ih => simp [execBatch, ih]

/-- Running the eviction commands removes exactly the entries whose member
is among the overflow ids, from the ID Index and the Item Map alike. -/
theorem exec_deleteCmds_fst (s : FeedState) (O : List String) :
    (execBatch s (deleteCmds O)).1 = afterDeletes s O := by
  induction O generalizing s with
  | nil =>
      simp [deleteCmds, execBatch, afterDeletes, List.contains_nil]
  | cons d O' ih =>
      have hstep : deleteCmds (d :: O') =
          [Cmd.zrem d, Cmd.hdel d, Cmd.pubRetract d] ++ deleteCmds O' := by
        simp [deleteCmds]
      rw [hstep, execBatch_append]
      have hmid : (execBatch s [Cmd.zrem d, Cmd.hdel d, Cmd.pubRetract d]).1 =
          { ids := s.ids.filter (fun p => p.1 != d),
            items := s.items.filter (fun p => p.1 != d),
            publishes := s.publishes } := rfl
      rw [hmid, ih]
      unfold afterDeletes
      simp only [List.filter_filter]
      simp only [FeedState.mk.injEq]
      refine ⟨?_, ?_, trivial⟩ <;>
        · apply List.filter_congr
          intro p _
          by_cases hd : p.1 = d <;>
            simp [hd, List.contains_cons, Bool.not_or, bne, Bool.and_comm]

/-- The tail of every publish batch: `zadd`, `incr`, `hset`, with their
replies. -/
theorem exec_pubTail (t : FeedState) (now : Nat) (id item : String) :
    execBatch t [Cmd.zadd now id, Cmd.incr, Cmd.hset id item] =
      ({ ids := (zadd t.ids now id).1, items := (hset t.items id item).1,
         publishes := t.publishes + 1 },
       [(zadd t.ids now id).2, t.publishes + 1, (hset t.items id item).2], []) := rfl

theorem exec_publishCmds_fst (s : FeedState) (D : List String) (now : Nat)
    (id item : String) :
    (execBatch s (publishCmds D now id item)).1 =
      { ids := (zadd (afterDeletes s D).ids now id).1,
        items := (hset (afterDeletes s D).items id item).1,
        publishes := s.publishes + 1 } := by
  unfold publishCmds
  rw [execBatch_append, exec_deleteCmds_fst, exec_pubTail]
  simp [afterDeletes]

theorem exec_publishCmds_replies (s : FeedState) (D : List String) (now : Nat)
    (id item : String) :
    (execBatch s (publishCmds D now id item)).2.1 =
      (execBatch s (deleteCmds D)).2.1 ++
        [(zadd (afterDeletes s D).ids now id).2, s.publishes + 1,
         (hset (afterDeletes s D).items id item).2] := by
  unfold publishCmds
  rw [execBatch_append, exec_deleteCmds_fst, exec_pubTail]
  simp [afterDeletes]

theorem exec_publishCmds_events (s : FeedState) (D : List String) (now : Nat)
    (id item : String) :
    (execBatch s (publishCmds D now id item)).2.2 =
      (execBatch s (deleteCmds D)).2.2 := by
  unfold publishCmds
  rw [execBatch_append, exec_deleteCmds_fst, exec_pubTail]
  simp

theorem publishAttempt_fst (s : FeedState) (N now : Nat) (id item : String) :
    (feedPublishAttempt s N now id item).1 =
      { ids := (zadd (afterDeletes s (overflowIds s N)).ids now id).1,
        items := (hset (afterDeletes s (overflowIds s N)).items id item).1,
        publishes := s.publishes + 1 } :=
  exec_publishCmds_fst s (overflowIds s N) now id item

theorem publishAttempt_replies (s : FeedState) (N now : Nat) (id item : String) :
    (feedPublishAttempt s N now id item).2.1 =
      (execBatch s (deleteCmds (overflowIds s N))).2.1 ++
        [(zadd (afterDeletes s (overflowIds s N)).ids now id).2, s.publishes + 1,
         (hset (afterDeletes s (overflowIds s N)).items id item).2] :=
  exec_publishCmds_replies s (overflowIds s N) now id item

theorem publishAttempt_events (s : FeedState) (N now : Nat) (id item : String) :
    (feedPublishAttempt s N now id item).2.2 =
      (execBatch s (deleteCmds (overflowIds s N))).2.2 :=
  exec_publishCmds_events s (overflowIds s N) now id item

theorem zinsert_length (sc : Nat) (id : String) (l : List ZEntry) :
    (zinsert sc id l).length = l.length + 1 := by
  induction l with
  | nil => rfl
  | cons p rest ih =>
      unfold zinsert
      split
      · simp
      · simp [ih]

/-- Filtering out the members of `M` drops at least the first `k` entries
when every one of those entries' members is in `M`. -/
theorem filter_not_contains_length_le (l : List ZEntry) (M : List String) (k : Nat)
    (hM : ∀ a ∈ l.take k, M.contains a.1 = true) (_hk : k ≤ l.length) :
    (l.filter (fun p => !(M.contains p.1))).length ≤ l.length - k := by
  conv_lhs => rw [← List.take_append_drop k l]
  rw [List.filter_append]
  have h1 : (l.take k).filter (fun p => !(M.contains p.1)) = [] := by
    rw [List.filter_eq_nil_iff]
    intro a ha
    have h2 := hM a ha
    simp at h2 ⊢
    exact h2
  rw [h1]
  simp only [List.nil_append]
  calc ((l.drop k).filter (fun p => !(M.contains p.1))).length
      ≤ (l.drop k).length := List.length_filter_le _ _
    _ = l.length - k := List.length_drop k l

theorem take_smembers_contains (l : List ZEntry) (k : Nat) :
    ∀ a ∈ l.take k, ((smembers l).take k).contains a.1 = true := by
  intro a ha
  have : a.1 ∈ (smembers l).take k := by
    have : a.1 ∈ smembers (l.take k) := List.mem_map_of_mem Prod.fst ha
    rwa [smembers, List.map_take] at this
  simpa using this

/-- One bounded publish attempt leaves the ID Index with at most
`max_length` members, regardless of the snapshot it started from. -/
theorem publishAttempt_size_le (s : FeedState) (N now : Nat) (id item : String)
    (hN : 1 ≤ N) : (feedPublishAttempt s N now id item).1.ids.length ≤ N := by
  rw [publishAttempt_fst]
  unfold zadd
  simp only
  rw [zinsert_length]
  have hO : overflowIds s N = (smembers s.ids).take (s.ids.length + 1 - N) := by
    unfold overflowIds
    exact zrange_take s.ids N hN
  have hk : s.ids.length + 1 - N ≤ s.ids.length := by omega
  have hdel : (afterDeletes s (overflowIds s N)).ids.length
      ≤ s.ids.length - (s.ids.length + 1 - N) := by
    unfold afterDeletes
    simp only
    rw [hO]
    exact filter_not_contains_length_le s.ids _ _ (take_smembers_contains s.ids _) hk
  have hfil : ((afterDeletes s (overflowIds s N)).ids.filter
      (fun p => p.1 != id)).length ≤ (afterDeletes s (overflowIds s N)).ids.length :=
    List.length_filter_le _ _
  omega

theorem publish_fst_bounded (s : FeedState) (N now : Nat) (id item : String)
    (hN : N ≠ 0) :
    (feedPublish s N now id item).1 = (feedPublishAttempt s N now id item).1 := by
  unfold feedPublish
  rw [if_pos (by simpa using hN)]

/-- C1: for every feed configured with a positive `max_length` and every
sequence of successful publish operations (fresh or reused IDs alike),
after each successful publish the ID Index contains at most `max_length`
members. -/
theorem C1_publish_sequence_bound (s : FeedState) (N : Nat) (ops : List PubOp)
    (hN : 1 ≤ N) : ∀ t ∈ publishStates s N ops, t.ids.length ≤ N := by
  induction ops generalizing s with
  | nil =>
      intro t ht
      simp [publishStates] at ht
  | cons op rest ih =>
      intro t ht
      unfold publishStates at ht
      simp only [List.mem_cons] at ht
      rcases ht with h | h
      · subst h
        rw [publish_fst_bounded s N op.now op.id op.item (by omega)]
        exact publishAttempt_size_le s N op.now op.id op.item hN
      · exact ih _ t h

/-- Concrete inputs for exercising the bound invariant: a feed with
`max_length = 2`, four publishes, the last one an edit of an existing id. -/
def c1Start : FeedState := ⟨[], [], 0⟩

def c1Ops : List PubOp := [⟨"a", "A", 1⟩, ⟨"b", "B", 2⟩, ⟨"c", "C", 3⟩, ⟨"b", "B2", 4⟩]

def c1Last : FeedState := (publishStates c1Start 2 c1Ops).getLastD c1Start

theorem C1_witness : c1Last.ids.length ≤ 2 :=
  C1_publish_sequence_bound c1Start 2 c1Ops (by decide) c1Last (by decide)

theorem removedIds_deleteCmds (D : List String) : removedIds (deleteCmds D) = D := by
  induction D with
  | nil => rfl
  | cons d D' ih =>
      unfold removedIds deleteCmds at ih ⊢
      simp only [List.flatMap_cons, List.filterMap_append]
      rw [ih]
      rfl

theorem removedIds_publishCmds (D : List String) (now : Nat) (id item : String) :
    removedIds (publishCmds D now id item) = D := by
  unfold publishCmds
  unfold removedIds
  rw [List.filterMap_append]
  have h1 : List.filterMap
      (fun c => match c with | Cmd.zrem i => some i | _ => none) (deleteCmds D) = D :=
    removedIds_deleteCmds D
  rw [h1]
  simp [List.filterMap_cons]

/-- C2: the IDs a bounded publish attempt removes in the same transaction
as its insert are exactly the lowest-scored
`max(0, currentSize - maxLength + 1)` entries of the ID Index (so none
when `currentSize - maxLength + 1 ≤ 0`); the `zadd` insert is part of the
same batch, and rank order means those entries' scores are below every
kept entry's score. -/
theorem C2_overflow_exact (s : FeedState) (N now : Nat) (id item : String)
    (hN : 1 ≤ N) (hsort : s.ids.Pairwise (fun p q => p.2 ≤ q.2)) :
    removedIds (publishCmds (overflowIds s N) now id item)
        = (smembers s.ids).take (s.ids.length + 1 - N)
    ∧ (s.ids.length + 1 ≤ N →
        removedIds (publishCmds (overflowIds s N) now id item) = [])
    ∧ Cmd.zadd now id ∈ publishCmds (overflowIds s N) now id item
    ∧ ∀ p ∈ s.ids.take (s.ids.length + 1 - N),
        ∀ q ∈ s.ids.drop (s.ids.length + 1 - N), p.2 ≤ q.2 := by
  refine ⟨?_, ?_, ?_, ?_⟩
  · rw [removedIds_publishCmds]
    unfold overflowIds
    exact zrange_take s.ids N hN
  · intro hle
    rw [removedIds_publishCmds]
    unfold overflowIds
    rw [zrange_take s.ids N hN, Nat.sub_eq_zero_of_le hle, List.take_zero]
  · unfold publishCmds
    simp
  · intro p hp q hq
    have hall : List.Pairwise (fun p q : ZEntry => p.2 ≤ q.2)
        (s.ids.take (s.ids.length + 1 - N) ++ s.ids.drop (s.ids.length + 1 - N)) := by
      rw [List.take_append_drop]
      exact hsort
    exact (List.pairwise_append.mp hall).2.2 p hp q hq

/-- Concrete snapshot for the overflow rule: three entries, bound 2, so
exactly the two lowest-scored entries are evicted. -/
def c2s : FeedState := ⟨[("a", 1), ("b", 2), ("c", 3)], [("a", "A"), ("b", "B"), ("c", "C")], 0⟩

theorem C2_witness :
    removedIds (publishCmds (overflowIds c2s 2) 9 "d" "D")
      = (smembers c2s.ids).take (c2s.ids.length + 1 - 2) :=
  (C2_overflow_exact c2s 2 9 "d" "D" (by decide) (by decide)).1

theorem sliceNeg3_append3 (rs : List Nat) (a b c : Nat) :
    sliceNeg3 (rs ++ [a, b, c]) = some a := by
  unfold sliceNeg3
  have hl : (rs ++ [a, b, c]).length = rs.length + 3 := by simp
  rw [hl]
  have h3 : rs.length + 3 - 3 = rs.length := by omega
  rw [h3, List.getElem?_append_right (Nat.le_refl rs.length)]
  simp

theorem afterDeletes_any_iff (s : FeedState) (O : List String) (id : String) :
    ((afterDeletes s O).ids.any (fun p => p.1 == id) = true) ↔
      (id ∈ smembers s.ids ∧ id ∉ O) := by
  unfold afterDeletes smembers
  simp only [List.any_eq_true, List.mem_filter]
  constructor
  · rintro ⟨p, ⟨hp, hno⟩, hbeq⟩
    have hid : p.1 = id := by simpa using hbeq
    subst hid
    refine ⟨List.mem_map_of_mem Prod.fst hp, ?_⟩
    intro hin
    simp [hin] at hno
  · rintro ⟨hmem, hno⟩
    rcases List.mem_map.mp hmem with ⟨p, hp, hfst⟩
    refine ⟨p, ⟨hp, ?_⟩, by simp [hfst]⟩
    rw [hfst]
    simpa using hno

/-- The delete list `feedPublish` actually queues: the overflow set when
`max_length` is truthy, nothing otherwise. -/
def effectiveOverflow (s : FeedState) (max_length : Nat) : List String :=
  if max_length != 0 then overflowIds s max_length else []

theorem publish_events_eq (s : FeedState) (N now : Nat) (id item : String) :
    (feedPublish s N now id item).2 =
      Event.lockAcquire :: publishFinish
        (execBatch s (publishCmds (effectiveOverflow s N) now id item)).2.1
        (execBatch s (publishCmds (effectiveOverflow s N) now id item)).2.2 id item := by
  unfold feedPublish effectiveOverflow feedPublishAttempt
  by_cases hN : (N != 0) = true
  · rw [if_pos hN, if_pos hN]
  · rw [if_neg hN, if_neg hN]

/-- C3 counterexample: on a feed with `max_length = 1` containing the id
`"a"`, republishing `"a"` (an edit: the id is a member of the committed
snapshot) emits a publish notification, not the edit notification the
claim requires — the id is evicted by the same batch before its `zadd`,
so the `zadd` reply the code classifies by reports it as new. -/
def c3s : FeedState := ⟨[("a", 1)], [("a", "old")], 0⟩

theorem C3_counterexample :
    "a" ∈ smembers c3s.ids ∧
    Event.notePublish (pubPayload "a" "new") ∈ (feedPublish c3s 1 2 "a" "new").2 ∧
    Event.noteEdit (pubPayload "a" "new") ∉ (feedPublish c3s 1 2 "a" "new").2 := by
  decide

/-- C3 amended: a successful publish emits exactly one of the two
notifications — an edit notification when the id was a member of the
committed snapshot AND survived the batch's own evictions, a publish
notification otherwise (so an id in the overflow set counts as new);
the payload carries `(id, item)` and the caller's callback with
`(item, id)` comes only after the notification. -/
theorem C3_publish_edit_classification (s : FeedState) (N now : Nat) (id item : String) :
    (feedPublish s N now id item).2 =
      Event.lockAcquire ::
        (execBatch s (publishCmds (effectiveOverflow s N) now id item)).2.2 ++
      [Event.execCommitted, Event.unlock,
       (if id ∈ smembers s.ids ∧ id ∉ effectiveOverflow s N
        then Event.noteEdit (pubPayload id item)
        else Event.notePublish (pubPayload id item)),
       Event.callbackPub item id] := by
  rw [publish_events_eq]
  unfold publishFinish
  have hz : sliceNeg3 (execBatch s (publishCmds (effectiveOverflow s N) now id item)).2.1
      = some ((zadd (afterDeletes s (effectiveOverflow s N)).ids now id).2) := by
    rw [exec_publishCmds_replies]
    exact sliceNeg3_append3 _ _ _ _
  rw [hz]
  by_cases hc : id ∈ smembers s.ids ∧ id ∉ effectiveOverflow s N
  · have hany : (afterDeletes s (effectiveOverflow s N)).ids.any
        (fun p => p.1 == id) = true :=
      (afterDeletes_any_iff s (effectiveOverflow s N) id).mpr hc
    have hr : (zadd (afterDeletes s (effectiveOverflow s N)).ids now id).2 = 0 := by
      unfold zadd
      simp only
      rw [if_pos hany]
    rw [hr, if_pos hc]
    simp [truthy]
  · have hany : ¬ ((afterDeletes s (effectiveOverflow s N)).ids.any
        (fun p => p.1 == id) = true) := by
      rw [afterDeletes_any_iff s (effectiveOverflow s N) id]
      exact hc
    have hr : (zadd (afterDeletes s (effectiveOverflow s N)).ids now id).2 = 1 := by
      unfold zadd
      simp only
      rw [if_neg hany]
    rw [hr, if_neg hc]
    simp [truthy]

theorem hget_map_update (m : List (String × String)) (f v : String)
    (hm : f ∈ m.map Prod.fst) :
    hget (m.map (fun p => if p.1 == f then (f, v) else p)) f = some v := by
  induction m with
  | nil => simp at hm
  | cons p rest ih =>
      by_cases hp : p.1 = f
      · unfold hget
        simp [hp]
      · have hhead : (if (p.1 == f) = true then (f, v) else p) = p := by
          simp [hp]
        unfold hget at ih ⊢
        simp only [List.map_cons]
        rw [hhead, List.find?_cons_of_neg _ (by simpa using hp)]
        apply ih
        simp only [List.map_cons, List.mem_cons] at hm
        rcases hm with h | h
        · exact absurd h.symm hp
        · exact h

theorem hget_append_of_not_mem (m : List (String × String)) (f v : String)
    (hm : ∀ p ∈ m, ¬ p.1 = f) :
    hget (m ++ [(f, v)]) f = some v := by
  induction m with
  | nil => simp [hget]
  | cons p rest ih =>
      unfold hget at ih ⊢
      simp only [List.cons_append]
      rw [List.find?_cons_of_neg _ (by simpa using hm p (List.mem_cons_self p rest))]
      exact ih (fun q hq => hm q (List.mem_cons_of_mem p hq))

theorem hget_hset_self (m : List (String × String)) (f v : String) :
    hget (hset m f v).1 f = some v := by
  unfold hset
  by_cases hm : m.any (fun p => p.1 == f) = true
  · rw [if_pos hm]
    apply hget_map_update
    simp only [List.any_eq_true] at hm
    rcases hm with ⟨p, hp, he⟩
    have : p.1 = f := by simpa using he
    exact this ▸ List.mem_map_of_mem Prod.fst hp
  · rw [if_neg hm]
    apply hget_append_of_not_mem
    intro p hp hf
    apply hm
    simp only [List.any_eq_true]
    exact ⟨p, hp, by simp [hf]⟩

/-- C9: after a successful publish of `item` under `id` (any bound
configuration), `getItem id` returns exactly `item`. -/
theorem C9_publish_getItem_roundtrip (s : FeedState) (N now : Nat) (id item : String) :
    feedGetItem (feedPublish s N now id item).1 id = some item := by
  unfold feedPublish
  by_cases hN : N != 0
  · rw [if_pos hN]
    simp only
    unfold feedGetItem
    rw [publishAttempt_fst]
    exact hget_hset_self _ _ _
  · rw [if_neg hN]
    simp only
    unfold feedGetItem publishCmds deleteCmds
    simp only [List.flatMap_nil, List.nil_append]
    rw [exec_pubTail]
    exact hget_hset_self _ _ _

/-- A feed holding one item under id `"a"`: the input on which retract
should succeed but does not. -/
def c4s : FeedState := ⟨[("a", 5)], [("a", "x")], 0⟩

/-- C4 (code bug): retracting an id that IS a member of the ID Index still
reports "Id does not exist." and removes nothing — the `zrank` existence
check at feed.js line 177 is sent without the member argument, so its
reply is an error (falsy) and the removal branch never runs. -/
theorem C4_retract_existing_fails :
    "a" ∈ smembers c4s.ids ∧
    feedRetract c4s "a" =
      (c4s, [Event.lockAcquire, Event.unlock, Event.unwatch,
             Event.callbackRetract "a" (some "Id does not exist.")],
       some "Id does not exist.") := by
  decide

/-- C5: retracting an id that is not a member of the ID Index surfaces
NotFound to the callback, releases the lock, abandons the watch, and
leaves the state (ID Index and Item Map) unchanged. -/
theorem C5_retract_not_found (s : FeedState) (id : String)
    (_h : id ∉ smembers s.ids) :
    feedRetract s id =
      (s, [Event.lockAcquire, Event.unlock, Event.unwatch,
           Event.callbackRetract id (some "Id does not exist.")],
       some "Id does not exist.") := rfl

def c5s : FeedState := ⟨[("a", 5)], [("a", "x")], 0⟩

theorem C5_witness :
    feedRetract c5s "zzz" =
      (c5s, [Event.lockAcquire, Event.unlock, Event.unwatch,
             Event.callbackRetract "zzz" (some "Id does not exist.")],
       some "Id does not exist.") :=
  C5_retract_not_found c5s "zzz" (by decide)

/-- C6 (code bug): the claim describes what happens when a retract commit
is rejected, but in the code no retract ever reaches a commit — the broken
existence check (see `zrankMissingMember`) sends every call down the
NotFound branch, so the retry-from-the-top code at feed.js lines 185-188
is unreachable: every retract leaves the state untouched, commits nothing,
and reports "Id does not exist.". -/
theorem C6_retract_never_commits (s : FeedState) (id : String) :
    (feedRetract s id).1 = s ∧
    Event.execCommitted ∉ (feedRetract s id).2.1 ∧
    (feedRetract s id).2.2 = some "Id does not exist." := by
  refine ⟨rfl, ?_, rfl⟩
  unfold feedRetract feedRetractStep zrankMissingMember truthy
  simp

/-- Snapshot of the first (aborted) attempt of a contended bounded publish:
its overflow set is `["a"]`. -/
def c7s1 : FeedState := ⟨[("a", 1), ("z", 2)], [("a", "A"), ("z", "Z")], 0⟩

/-- Snapshot the final attempt reads and commits against: `"a"` is still a
member but is NOT in this snapshot's overflow set (`["b", "c"]`). -/
def c7s2 : FeedState := ⟨[("b", 1), ("c", 2), ("a", 9)], [("b", "B"), ("c", "C"), ("a", "A")], 0⟩

/-- C7 (code bug): because `pmulti` is created once outside the retry
closure (feed.js line 117) and EXEC does not clear its queue, the retried
attempt's committed batch still contains the aborted attempt's stale
eviction (`zrem "a"`), even though the fresh overflow set is `["b", "c"]`;
the stale write is applied (`"a"` disappears although it is outside the
fresh overflow), and the publish counter is incremented twice for one
publish. -/
theorem C7_stale_overflow_applied :
    overflowIds c7s1 2 = ["a"] ∧
    overflowIds c7s2 2 = ["b", "c"] ∧
    Cmd.zrem "a" ∈ (publishRun [⟨c7s1, 10⟩] ⟨c7s2, 20⟩ 2 "x" "v").2.1 ∧
    "a" ∉ overflowIds c7s2 2 ∧
    "a" ∈ smembers c7s2.ids ∧
    "a" ∉ smembers (publishRun [⟨c7s1, 10⟩] ⟨c7s2, 20⟩ 2 "x" "v").1.ids ∧
    (publishRun [⟨c7s1, 10⟩] ⟨c7s2, 20⟩ 2 "x" "v").2.1.count Cmd.incr = 2 := by
  decide

def c8s1 : FeedState := ⟨[("p", 1), ("q", 2)], [("p", "P"), ("q", "Q")], 0⟩

def c8s2 : FeedState := ⟨[("q", 2), ("r", 3)], [("q", "Q"), ("r", "R")], 0⟩

/-- C8 counterexample: on a bounded publish whose first attempt aborts, the
lock is released twice, and the first release happens right after the
aborted EXEC — not "exactly once at the attempt that finally commits". -/
theorem C8_counterexample :
    countUnlock (publishRun [⟨c8s1, 10⟩] ⟨c8s2, 20⟩ 2 "x" "v").2.2 = 2 ∧
    (publishRun [⟨c8s1, 10⟩] ⟨c8s2, 20⟩ 2 "x" "v").2.2.take 3 =
      [Event.lockAcquire, Event.execAborted, Event.unlock] := by
  decide

theorem execBatch_no_unlock (s : FeedState) (cs : List Cmd) :
    Event.unlock ∉ (execBatch s cs).2.2 := by
  induction cs generalizing s with
  | nil => simp [execBatch]
  | cons c cs ih =>
      intro hmem
      simp only [execBatch, List.mem_append] at hmem
      rcases hmem with h | h
      · cases c <;> simp [execCmd] at h
      · exact ih _ h

theorem count_unlock_flatMap (l : List AttemptCtx) :
    (l.flatMap (fun _ => [Event.execAborted, Event.unlock])).count Event.unlock
      = l.length := by
  induction l with
  | nil => simp
  | cons a l ih =>
      rw [List.flatMap_cons, List.count_append, ih]
      have h2 : ([Event.execAborted, Event.unlock]).count Event.unlock = 1 := by decide
      rw [h2]
      rw [List.length_cons]
      omega

theorem count_unlock_publishFinish (rs : List Nat) (evs : List Event) (id item : String)
    (h : Event.unlock ∉ evs) :
    (publishFinish rs evs id item).count Event.unlock = 1 := by
  unfold publishFinish
  rw [List.count_append, List.count_eq_zero.mpr h]
  cases h2 : truthy (sliceNeg3 rs) <;>
    simp [h2, List.count_cons]

/-- C8 amended: the lock is acquired once, before the first attempt; it is
released once per attempt — at every EXEC completion, aborted attempts
included — so a run with aborted attempts releases it more than once; a
retract (which, as written, always fails fast with NotFound) releases it
exactly once. -/
theorem C8_lock_release_per_attempt (aborted : List AttemptCtx) (final : AttemptCtx)
    (N : Nat) (id item : String) (s : FeedState) (rid : String) :
    (publishRun aborted final N id item).2.2.head? = some Event.lockAcquire ∧
    countUnlock (publishRun aborted final N id item).2.2 = aborted.length + 1 ∧
    countUnlock (feedRetract s rid).2.1 = 1 := by
  refine ⟨rfl, ?_, ?_⟩
  · unfold publishRun countUnlock
    simp only
    rw [List.count_append, List.count_cons, count_unlock_flatMap,
        count_unlock_publishFinish _ _ _ _ (execBatch_no_unlock _ _)]
    simp
  · unfold feedRetract feedRetractStep zrankMissingMember truthy countUnlock
    simp [List.count_cons]

theorem overflowIds_eq_take (s : FeedState) (N : Nat) (hN : 1 ≤ N) :
    overflowIds s N = (smembers s.ids).take (s.ids.length + 1 - N) := by
  unfold overflowIds
  exact zrange_take s.ids N hN

theorem filter_not_contains_eq_drop (l : List ZEntry) (M : List String) (k : Nat)
    (h1 : ∀ a ∈ l.take k, M.contains a.1 = true)
    (h2 : ∀ a ∈ l.drop k, M.contains a.1 = false) :
    l.filter (fun p => !(M.contains p.1)) = l.drop k := by
  conv_lhs => rw [← List.take_append_drop k l]
  rw [List.filter_append]
  have hnil : (l.take k).filter (fun p => !(M.contains p.1)) = [] := by
    rw [List.filter_eq_nil_iff]
    intro a ha
    have h3 := h1 a ha
    simp at h3 ⊢
    exact h3
  have hall : (l.drop k).filter (fun p => !(M.contains p.1)) = l.drop k := by
    rw [List.filter_eq_self]
    intro a ha
    have h3 := h2 a ha
    simp at h3 ⊢
    exact h3
  rw [hnil, hall, List.nil_append]

/-- With no duplicate members, deleting the overflow set leaves exactly the
entries past the overflow prefix. -/
theorem afterDeletes_ids_eq_drop (s : FeedState) (N : Nat) (hN : 1 ≤ N)
    (hnd : (smembers s.ids).Nodup) :
    (afterDeletes s (overflowIds s N)).ids
      = s.ids.drop (s.ids.length + 1 - N) := by
  unfold afterDeletes
  simp only
  rw [overflowIds_eq_take s N hN]
  apply filter_not_contains_eq_drop
  · exact take_smembers_contains s.ids _
  · intro a ha
    have hmem : a.1 ∈ (smembers s.ids).drop (s.ids.length + 1 - N) := by
      have h3 : a.1 ∈ smembers (s.ids.drop (s.ids.length + 1 - N)) :=
        List.mem_map_of_mem Prod.fst ha
      rwa [smembers, List.map_drop] at h3
    have hsplit : ((smembers s.ids).take (s.ids.length + 1 - N)
        ++ (smembers s.ids).drop (s.ids.length + 1 - N)).Nodup := by
      rw [List.take_append_drop]
      exact hnd
    have hdisj := (List.nodup_append.mp hsplit).2.2
    have hnot : a.1 ∉ (smembers s.ids).take (s.ids.length + 1 - N) :=
      fun hin => hdisj hin hmem
    simpa using hnot

theorem filter_bne_length (m : List ZEntry) (id : String)
    (hnd : (smembers m).Nodup) (hm : id ∈ smembers m) :
    (m.filter (fun p => p.1 != id)).length = m.length - 1 := by
  induction m with
  | nil => simp [smembers] at hm
  | cons p rest ih =>
      have hh : smembers (p :: rest) = p.1 :: smembers rest := rfl
      rw [hh] at hnd hm
      have hndr := (List.nodup_cons.mp hnd).2
      have hpnr := (List.nodup_cons.mp hnd).1
      by_cases hp : p.1 = id
      · rw [List.filter_cons_of_neg (by simpa using hp)]
        have hrest : rest.filter (fun q => q.1 != id) = rest := by
          rw [List.filter_eq_self]
          intro a ha
          have hmem : a.1 ∈ smembers rest := List.mem_map_of_mem Prod.fst ha
          have hne : ¬ a.1 = id := by
            intro he
            rw [← hp] at he
            rw [he] at hmem
            exact hpnr hmem
          simpa using hne
        rw [hrest]
        simp
      · rw [List.filter_cons_of_pos (by simpa using hp)]
        have hmr : id ∈ smembers rest := by
          rcases List.mem_cons.mp hm with h | h
          · exact absurd h.symm hp
          · exact h
        have hlen : 1 ≤ rest.length := by
          rcases List.mem_map.mp hmr with ⟨q, hq, _⟩
          exact List.length_pos.mpr (List.ne_nil_of_mem hq)
        rw [List.length_cons, ih hndr hmr]
        simp only [List.length_cons]
        omega

theorem mem_smembers_zinsert (a : String) (sc : Nat) (id : String) (l : List ZEntry) :
    a ∈ smembers (zinsert sc id l) ↔ a = id ∨ a ∈ smembers l := by
  induction l with
  | nil => simp [zinsert, smembers]
  | cons p rest ih =>
      unfold zinsert
      split
      · simp [smembers]
      · have hh : smembers (p :: zinsert sc id rest) = p.1 :: smembers (zinsert sc id rest) :=
          rfl
        rw [hh]
        have hh2 : smembers (p :: rest) = p.1 :: smembers rest := rfl
        rw [hh2]
        simp only [List.mem_cons, ih]
        tauto

theorem smembers_filter_subset (m : List ZEntry) (q : ZEntry → Bool) (a : String)
    (h : a ∈ smembers (m.filter q)) : a ∈ smembers m := by
  rcases List.mem_map.mp h with ⟨p, hp, he⟩
  exact he ▸ List.mem_map_of_mem Prod.fst (List.mem_of_mem_filter hp)

/-- C10: on a bounded feed at or above capacity, publishing with an id
that is already a member (an edit) still removes the overflow entries —
other items are evicted even though no new member is added, and the feed
is left with `max_length - 1` members, strictly below the bound. -/
theorem C10_edit_still_evicts (s : FeedState) (N now : Nat) (id item : String)
    (hN : 1 ≤ N) (hcap : N ≤ s.ids.length) (hmem : id ∈ smembers s.ids)
    (hnot : id ∉ overflowIds s N) (hnd : (smembers s.ids).Nodup) :
    (∀ d ∈ overflowIds s N, d ∉ smembers (feedPublishAttempt s N now id item).1.ids) ∧
    overflowIds s N ≠ [] ∧
    (feedPublishAttempt s N now id item).1.ids.length = N - 1 ∧
    N - 1 < N := by
  have hk1 : 1 ≤ s.ids.length + 1 - N := by omega
  have hids : (feedPublishAttempt s N now id item).1.ids
      = zinsert now id ((s.ids.drop (s.ids.length + 1 - N)).filter
          (fun p => p.1 != id)) := by
    rw [publishAttempt_fst]
    unfold zadd
    simp only
    rw [afterDeletes_ids_eq_drop s N hN hnd]
  have hmdrop : id ∈ smembers (s.ids.drop (s.ids.length + 1 - N)) := by
    have hsplitm : id ∈ (smembers s.ids).take (s.ids.length + 1 - N)
        ∨ id ∈ (smembers s.ids).drop (s.ids.length + 1 - N) := by
      rw [← List.mem_append, List.take_append_drop]
      exact hmem
    rcases hsplitm with h | h
    · exact absurd h (by rwa [overflowIds_eq_take s N hN] at hnot)
    · rwa [smembers, List.map_drop]
  have hnddrop : (smembers (s.ids.drop (s.ids.length + 1 - N))).Nodup := by
    rw [smembers, List.map_drop]
    exact List.Nodup.sublist (List.drop_sublist _ _) hnd
  refine ⟨?_, ?_, ?_, by omega⟩
  · intro d hd
    rw [hids]
    rw [mem_smembers_zinsert]
    push_neg
    constructor
    · intro he
      rw [he] at hd
      exact hnot hd
    · intro hin
      have hds : d ∈ smembers (s.ids.drop (s.ids.length + 1 - N)) :=
        smembers_filter_subset _ _ d hin
      rw [smembers, List.map_drop] at hds
      have hdt : d ∈ (smembers s.ids).take (s.ids.length + 1 - N) := by
        rwa [overflowIds_eq_take s N hN] at hd
      have hsplit : ((smembers s.ids).take (s.ids.length + 1 - N)
          ++ (smembers s.ids).drop (s.ids.length + 1 - N)).Nodup := by
        rw [List.take_append_drop]
        exact hnd
      exact (List.nodup_append.mp hsplit).2.2 hdt hds
  · rw [overflowIds_eq_take s N hN]
    intro he
    have hl := congrArg List.length he
    rw [List.length_take] at hl
    simp only [List.length_nil] at hl
    rw [smembers, List.length_map] at hl
    omega
  · rw [hids, zinsert_length,
        filter_bne_length _ id hnddrop hmdrop, List.length_drop]
    have hne : s.ids.drop (s.ids.length + 1 - N) ≠ [] := by
      rcases List.mem_map.mp hmdrop with ⟨q, hq, _⟩
      exact List.ne_nil_of_mem hq
    have hpos : 1 ≤ (s.ids.drop (s.ids.length + 1 - N)).length :=
      List.length_pos.mpr hne
    rw [List.length_drop] at hpos
    omega

/-- A sorted three-member feed at capacity for bound 2; editing `"z"`
(not in the overflow set) evicts `"m"` and `"n"`. -/
def c10s : FeedState :=
  ⟨[("m", 3), ("n", 4), ("z", 7)], [("m", "M"), ("n", "N"), ("z", "Z")], 0⟩

theorem C10_witness :
    (∀ d ∈ overflowIds c10s 2,
        d ∉ smembers (feedPublishAttempt c10s 2 9 "z" "Z2").1.ids) ∧
    overflowIds c10s 2 ≠ [] ∧
    (feedPublishAttempt c10s 2 9 "z" "Z2").1.ids.length = 2 - 1 ∧
    2 - 1 < 2 :=
  C10_edit_still_evicts c10s 2 9 "z" "Z2" (by decide) (by decide) (by decide)
    (by decide) (by decide)

end Thoonk
